import Mathlib

/-!
Verification of the PDF layout engine of `app.py` (Statsig order-form
generator).  Python text is modelled over `List Char`; Python `float`
amounts are modelled as exact rationals `ℚ`; the reportlab canvas is
modelled as an explicit operation stream / state machine.
-/

namespace OrderForm

/-! ### Python string primitives

`str.split()` (split on runs of whitespace, dropping empty pieces) and
`str.strip()` (remove leading and trailing whitespace), modelled on
`List Char`. -/

def isWs (c : Char) : Bool := c.isWhitespace

/-- Python `str.split()` with no separator argument: whitespace-delimited
words of a character list. -/
def splitWs : List Char → List (List Char)
  | [] => []
  | c :: cs =>
    if isWs c then splitWs cs
    else (c :: cs.takeWhile (fun d => !isWs d)) :: splitWs (cs.dropWhile (fun d => !isWs d))
  termination_by l => l.length
  decreasing_by
    · simp only [List.length_cons]; omega
    · simp only [List.length_cons]
      exact Nat.lt_succ_of_le (List.dropWhile_sublist _).length_le

/-- Python `str.strip()`: drop leading and trailing whitespace. -/
def stripWs (l : List Char) : List Char :=
  ((l.dropWhile isWs).reverse.dropWhile isWs).reverse

/-! ### `wrap_text_to_width` (app.py lines 905–926)

The source greedily packs whitespace-delimited words into lines:
starting from the first word, each next word is tentatively appended
with a single space; if the measured width of the candidate exceeds
`max_width` the current line is committed and the word starts a new
line.  The string-width metric `c.stringWidth(·, font, size)` is
abstracted as a function `w : List Char → ℚ`. -/

/-- The greedy loop of `wrap_text_to_width` over the word list, with
`current` the line under construction. -/
def wrapWords (w : List Char → ℚ) (maxW : ℚ) : List Char → List (List Char) → List (List Char)
  | current, [] => [current]
  | current, word :: rest =>
    if w (current ++ ' ' :: word) ≤ maxW then
      wrapWords w maxW (current ++ ' ' :: word) rest
    else
      current :: wrapWords w maxW word rest

/-- `wrap_text_to_width(c, text, max_width, font_name, font_size)`:
strip the text, return a single empty line if nothing remains, else
split into words and wrap greedily.  (In the source the empty check is
`if not content: return [""]`; `content` is stripped, so it is empty
exactly when it has no words, which is the `[]` branch of the match.) -/
def wrapTextToWidth (w : List Char → ℚ) (maxW : ℚ) (text : List Char) : List (List Char) :=
  match splitWs (stripWs text) with
  | [] => [[]]
  | word :: rest => wrapWords w maxW word rest

/-- Joining a list tail with single leading spaces, so that
`joinSpace (w :: ws) = w ++ tailJoin ws` is Python `" ".join`. -/
def tailJoin (ws : List (List Char)) : List Char :=
  ws.flatMap (fun v => ' ' :: v)

def joinSpace : List (List Char) → List Char
  | [] => []
  | w :: ws => w ++ tailJoin ws

/-! ### Lemmas about `splitWs` / `stripWs` -/

theorem mem_splitWs_nonempty_noWs {l : List Char} :
    ∀ word ∈ splitWs l, word ≠ [] ∧ ∀ c ∈ word, isWs c = false := by
  induction l using splitWs.induct with
  | case1 => intro word h; simp [splitWs] at h
  | case2 c cs hc ih =>
    intro word h
    rw [splitWs, if_pos hc] at h
    exact ih word h
  | case3 c cs hc ih =>
    intro word h
    rw [splitWs, if_neg hc] at h
    rcases List.mem_cons.mp h with h | h
    · subst h
      refine ⟨by simp, ?_⟩
      intro d hd
      rcases List.mem_cons.mp hd with rfl | hd
      · simpa using hc
      · have := List.mem_takeWhile_imp hd
        simpa using this
    · exact ih word h

theorem splitWs_dropWhile_ws (l : List Char) :
    splitWs (l.dropWhile isWs) = splitWs l := by
  induction l with
  | nil => rfl
  | cons c cs ih =>
    by_cases hc : isWs c
    · rw [List.dropWhile_cons_of_pos hc, ih, splitWs, if_pos hc]
    · rw [List.dropWhile_cons_of_neg hc]

theorem splitWs_all_ws {l : List Char} (h : ∀ c ∈ l, isWs c) : splitWs l = [] := by
  induction l with
  | nil => rw [splitWs]
  | cons c cs ih =>
    rw [splitWs, if_pos (h c (by simp))]
    exact ih (fun d hd => h d (by simp [hd]))

/-- Appending a purely-whitespace tail does not change the word list. -/
theorem splitWs_append_ws (xs : List Char) {t : List Char} (ht : ∀ c ∈ t, isWs c) :
    splitWs (xs ++ t) = splitWs xs := by
  induction xs using splitWs.induct with
  | case1 => simpa [splitWs] using splitWs_all_ws ht
  | case2 c cs hc ih =>
    rw [List.cons_append, splitWs, if_pos hc, splitWs, if_pos hc]
    exact ih
  | case3 c cs hc ih =>
    rw [List.cons_append, splitWs, if_neg hc, splitWs, if_neg hc]
    by_cases hall : ∀ d ∈ cs, (!isWs d) = true
    · have htake : cs.takeWhile (fun d => !isWs d) = cs := List.takeWhile_eq_self_iff.mpr hall
      have hdrop : cs.dropWhile (fun d => !isWs d) = [] := List.dropWhile_eq_nil_iff.mpr hall
      have htakeT : t.takeWhile (fun d => !isWs d) = [] := by
        cases t with
        | nil => rfl
        | cons u us => exact List.takeWhile_cons_of_neg (by simp [ht u (by simp)])
      have hdropT : t.dropWhile (fun d => !isWs d) = t := by
        cases t with
        | nil => rfl
        | cons u us => exact List.dropWhile_cons_of_neg (by simp [ht u (by simp)])
      rw [List.takeWhile_append, List.dropWhile_append]
      rw [htake, hdrop, htakeT, hdropT]
      simp only [List.isEmpty_nil, if_true, if_pos rfl]
      rw [splitWs_all_ws ht, splitWs, List.append_nil]
    · have htake : ¬(cs.takeWhile (fun d => !isWs d)).length = cs.length := by
        intro hlen
        exact hall (List.takeWhile_eq_self_iff.mp
          ((List.takeWhile_sublist _).eq_of_length hlen))
      have hdrop : ¬(cs.dropWhile (fun d => !isWs d)).isEmpty = true := by
        simp only [List.isEmpty_iff]
        intro hnil
        exact hall (List.dropWhile_eq_nil_iff.mp hnil)
      rw [List.takeWhile_append, List.dropWhile_append, if_neg htake, if_neg hdrop]
      rw [ih]

theorem splitWs_stripWs (l : List Char) : splitWs (stripWs l) = splitWs l := by
  unfold stripWs
  set m := l.dropWhile isWs with hm
  have hsplit : m.takeWhile isWs ++ m.dropWhile isWs = m := List.takeWhile_append_dropWhile ..
  have hrev : m.reverse.takeWhile isWs ++ m.reverse.dropWhile isWs = m.reverse :=
    List.takeWhile_append_dropWhile ..
  have hdecomp : m = (m.reverse.dropWhile isWs).reverse ++ (m.reverse.takeWhile isWs).reverse := by
    conv_lhs => rw [← List.reverse_reverse m, ← hrev]
    rw [List.reverse_append]
  have hws : ∀ c ∈ (m.reverse.takeWhile isWs).reverse, isWs c := by
    intro c hc
    exact List.mem_takeWhile_imp (List.mem_reverse.mp hc)
  calc splitWs (m.reverse.dropWhile isWs).reverse
      = splitWs ((m.reverse.dropWhile isWs).reverse ++ (m.reverse.takeWhile isWs).reverse) :=
        (splitWs_append_ws _ hws).symm
    _ = splitWs m := by rw [← hdecomp]
    _ = splitWs l := splitWs_dropWhile_ws l

/-! ### Structure of greedy wrapping -/

/-- A word as produced by `splitWs`: nonempty and whitespace-free. -/
def WordOk (word : List Char) : Prop := word ≠ [] ∧ ∀ c ∈ word, isWs c = false

/-- Every candidate prefix extension of the chain was accepted by the
width test, exactly as the greedy loop builds a line. -/
def chainOk (w : List Char → ℚ) (maxW : ℚ) : List Char → List (List Char) → Prop
  | _, [] => True
  | cur, word :: rest => w (cur ++ ' ' :: word) ≤ maxW ∧ chainOk w maxW (cur ++ ' ' :: word) rest

theorem tailJoin_nil : tailJoin [] = [] := rfl

theorem tailJoin_cons (word : List Char) (ws : List (List Char)) :
    tailJoin (word :: ws) = ' ' :: (word ++ tailJoin ws) := by
  simp [tailJoin]

theorem tailJoin_append (xs ys : List (List Char)) :
    tailJoin (xs ++ ys) = tailJoin xs ++ tailJoin ys := by
  simp [tailJoin]

theorem joinSpace_cons (word : List Char) (ws : List (List Char)) :
    joinSpace (word :: ws) = word ++ tailJoin ws := rfl

/-- A word standing alone is its own word list. -/
theorem splitWs_word {word : List Char} (h : WordOk word) : splitWs word = [word] := by
  obtain ⟨hne, hw⟩ := h
  cases word with
  | nil => exact absurd rfl hne
  | cons c cs =>
    rw [splitWs, if_neg (by simp [hw c (by simp)])]
    have htake : cs.takeWhile (fun d => !isWs d) = cs :=
      List.takeWhile_eq_self_iff.mpr (fun d hd => by simp [hw d (by simp [hd])])
    have hdrop : cs.dropWhile (fun d => !isWs d) = [] :=
      List.dropWhile_eq_nil_iff.mpr (fun d hd => by simp [hw d (by simp [hd])])
    rw [htake, hdrop, splitWs]

/-- A word followed by a space and arbitrary text splits into the word
followed by the words of the rest. -/
theorem splitWs_word_space {word : List Char} (h : WordOk word) (rest : List Char) :
    splitWs (word ++ ' ' :: rest) = word :: splitWs rest := by
  obtain ⟨hne, hw⟩ := h
  cases word with
  | nil => exact absurd rfl hne
  | cons c cs =>
    rw [List.cons_append, splitWs, if_neg (by simp [hw c (by simp)])]
    have hq : ∀ d ∈ cs, (fun d => !isWs d) d = true :=
      fun d hd => by simp [hw d (by simp [hd])]
    have htake : (cs ++ ' ' :: rest).takeWhile (fun d => !isWs d) = cs := by
      rw [List.takeWhile_append, if_pos (by rw [List.takeWhile_eq_self_iff.mpr hq])]
      rw [List.takeWhile_cons_of_neg (by simp [isWs]), List.append_nil]
    have hdrop : (cs ++ ' ' :: rest).dropWhile (fun d => !isWs d) = ' ' :: rest := by
      rw [List.dropWhile_append, if_pos (by simp [List.dropWhile_eq_nil_iff.mpr hq])]
      rw [List.dropWhile_cons_of_neg (by simp [isWs])]
    rw [htake, hdrop, splitWs, if_pos (by simp [isWs])]

/-- Splitting a space-join of proper words recovers exactly the words. -/
theorem splitWs_joinSpace : ∀ {ws : List (List Char)}, ws ≠ [] →
    (∀ word ∈ ws, WordOk word) → splitWs (joinSpace ws) = ws := by
  intro ws
  induction ws with
  | nil => intro h; exact absurd rfl h
  | cons word tl ih =>
    intro _ hok
    cases tl with
    | nil =>
      rw [joinSpace_cons, tailJoin_nil, List.append_nil]
      exact splitWs_word (hok word (by simp))
    | cons word2 tl2 =>
      rw [joinSpace_cons, tailJoin_cons, ← joinSpace_cons]
      rw [splitWs_word_space (hok word (by simp))]
      rw [ih (by simp) (fun x hx => hok x (by simp [hx]))]

/-- If every extension in the chain was accepted, the greedy loop emits
the whole chain as one line. -/
theorem wrapWords_of_chainOk (w : List Char → ℚ) (maxW : ℚ) :
    ∀ (rest : List (List Char)) (cur : List Char), chainOk w maxW cur rest →
      wrapWords w maxW cur rest = [cur ++ tailJoin rest] := by
  intro rest
  induction rest with
  | nil => intro cur _; rw [wrapWords, tailJoin_nil, List.append_nil]
  | cons word rest ih =>
    intro cur h
    rw [wrapWords, if_pos h.1, ih _ h.2, tailJoin_cons]
    simp

/-- Invariant of lines emitted by the greedy loop: each is a space-join
of a nonempty run of proper words whose chain of candidates was
accepted. -/
def GoodLine (w : List Char → ℚ) (maxW : ℚ) (line : List Char) : Prop :=
  ∃ hd tl, line = joinSpace (hd :: tl) ∧ (∀ x ∈ hd :: tl, WordOk x) ∧ chainOk w maxW hd tl

theorem chainOk_snoc (w : List Char → ℚ) (maxW : ℚ) (word : List Char) :
    ∀ (tl : List (List Char)) (cur : List Char), chainOk w maxW cur tl →
      w (cur ++ tailJoin tl ++ ' ' :: word) ≤ maxW → chainOk w maxW cur (tl ++ [word]) := by
  intro tl
  induction tl with
  | nil =>
    intro cur _ hw
    rw [tailJoin_nil, List.append_nil] at hw
    exact ⟨hw, trivial⟩
  | cons w1 tl ih =>
    intro cur h hw
    refine ⟨h.1, ih _ h.2 ?_⟩
    rw [tailJoin_cons] at hw
    simpa using hw

theorem goodLine_of_mem_wrapWords (w : List Char → ℚ) (maxW : ℚ) :
    ∀ (rest : List (List Char)) (cur : List Char), GoodLine w maxW cur →
      (∀ x ∈ rest, WordOk x) →
      ∀ line ∈ wrapWords w maxW cur rest, GoodLine w maxW line := by
  intro rest
  induction rest with
  | nil =>
    intro cur hcur _ line hline
    rw [wrapWords] at hline
    simp only [List.mem_singleton] at hline
    exact hline ▸ hcur
  | cons word rest ih =>
    intro cur hcur hrest line hline
    rw [wrapWords] at hline
    by_cases hfit : w (cur ++ ' ' :: word) ≤ maxW
    · rw [if_pos hfit] at hline
      obtain ⟨hd, tl, hrep, hok, hchain⟩ := hcur
      refine ih (cur ++ ' ' :: word)
        ⟨hd, tl ++ [word], ?_, ?_, ?_⟩ (fun x hx => hrest x (by simp [hx])) line hline
      · rw [hrep, joinSpace_cons, joinSpace_cons, tailJoin_append]
        simp [tailJoin, List.append_assoc]
      · intro x hx
        rcases List.mem_cons.mp hx with rfl | hx
        · exact hok x (by simp)
        · rcases List.mem_append.mp hx with hx | hx
          · exact hok x (by simp [hx])
          · simp only [List.mem_singleton] at hx
            exact hx ▸ hrest word (by simp)
      · refine chainOk_snoc w maxW word tl hd hchain ?_
        have : cur = hd ++ tailJoin tl := by rw [hrep, joinSpace_cons]
        rw [this, List.append_assoc] at hfit
        simpa [List.append_assoc] using hfit
    · rw [if_neg hfit] at hline
      rcases List.mem_cons.mp hline with rfl | hline
      · exact hcur
      · refine ih word ⟨word, [], by simp [joinSpace_cons, tailJoin_nil], ?_, trivial⟩
          (fun x hx => hrest x (by simp [hx])) line hline
        intro x hx
        simp only [List.mem_singleton] at hx
        exact hx ▸ hrest word (by simp)

theorem tailJoin_wrapWords (w : List Char → ℚ) (maxW : ℚ) :
    ∀ (rest : List (List Char)) (cur : List Char),
      tailJoin (wrapWords w maxW cur rest) = ' ' :: (cur ++ tailJoin rest) := by
  intro rest
  induction rest with
  | nil => intro cur; rw [wrapWords, tailJoin_cons, tailJoin_nil]
  | cons word rest ih =>
    intro cur
    rw [wrapWords]
    by_cases hfit : w (cur ++ ' ' :: word) ≤ maxW
    · rw [if_pos hfit, ih, tailJoin_cons]
      simp [List.append_assoc]
    · rw [if_neg hfit, tailJoin_cons, ih, tailJoin_cons]

theorem joinSpace_wrapWords (w : List Char → ℚ) (maxW : ℚ) :
    ∀ (rest : List (List Char)) (cur : List Char),
      joinSpace (wrapWords w maxW cur rest) = cur ++ tailJoin rest := by
  intro rest
  induction rest with
  | nil => intro cur; rw [wrapWords, joinSpace_cons, tailJoin_nil]
  | cons word rest ih =>
    intro cur
    rw [wrapWords]
    by_cases hfit : w (cur ++ ' ' :: word) ≤ maxW
    · rw [if_pos hfit, ih, tailJoin_cons]
      simp [List.append_assoc]
    · rw [if_neg hfit, joinSpace_cons, tailJoin_wrapWords, tailJoin_cons]

/-- The width-or-single-word invariant of the greedy loop. -/
theorem wrapWords_width_invariant (w : List Char → ℚ) (maxW : ℚ) (S : List (List Char)) :
    ∀ (rest : List (List Char)) (cur : List Char), (w cur ≤ maxW ∨ cur ∈ S) →
      (∀ x ∈ rest, x ∈ S) →
      ∀ line ∈ wrapWords w maxW cur rest, w line ≤ maxW ∨ line ∈ S := by
  intro rest
  induction rest with
  | nil =>
    intro cur hcur _ line hline
    rw [wrapWords] at hline
    simp only [List.mem_singleton] at hline
    exact hline ▸ hcur
  | cons word rest ih =>
    intro cur hcur hrest line hline
    rw [wrapWords] at hline
    by_cases hfit : w (cur ++ ' ' :: word) ≤ maxW
    · rw [if_pos hfit] at hline
      exact ih _ (Or.inl hfit) (fun x hx => hrest x (by simp [hx])) line hline
    · rw [if_neg hfit] at hline
      rcases List.mem_cons.mp hline with rfl | hline
      · exact hcur
      · exact ih _ (Or.inr (hrest word (by simp))) (fun x hx => hrest x (by simp [hx]))
          line hline

theorem wrapTextToWidth_eq_of_nil {text : List Char} (w : List Char → ℚ) (maxW : ℚ)
    (h : splitWs (stripWs text) = []) : wrapTextToWidth w maxW text = [[]] := by
  unfold wrapTextToWidth
  rw [h]

theorem wrapTextToWidth_eq_of_cons {text word : List Char} {rest : List (List Char)}
    (w : List Char → ℚ) (maxW : ℚ) (h : splitWs (stripWs text) = word :: rest) :
    wrapTextToWidth w maxW text = wrapWords w maxW word rest := by
  unfold wrapTextToWidth
  rw [h]

/-- Python `" ".join(text.split())`: the text with runs of whitespace
collapsed to single spaces and outer whitespace removed. -/
def normalizeWs (text : List Char) : List Char := joinSpace (splitWs text)

/-- A simple concrete width metric (one unit per character) used to
instantiate universally quantified theorems at witnesses. -/
def lenW (l : List Char) : ℚ := l.length

/-- C5: every line produced by `wrap_text_to_width` has measured width at
most the maximum width, except lines consisting of a single
whitespace-delimited word of the input text, which alone exceeds the
maximum width and is emitted unsplit.  The width metric is abstract; the
hypothesis `w [] ≤ maxW` is the empty-string property of any real font
metric (reportlab's `stringWidth` of `""` is `0`) with a nonnegative
maximum width, and matters only for whitespace-only input, whose single
output line is the empty line. -/
theorem C5_wrap_width_invariant (w : List Char → ℚ) (maxW : ℚ) (text : List Char)
    (hempty : w [] ≤ maxW) :
    ∀ line ∈ wrapTextToWidth w maxW text,
      w line ≤ maxW ∨ (line ∈ splitWs text ∧ line ≠ [] ∧ ∀ c ∈ line, isWs c = false) := by
  intro line hline
  rcases hsp : splitWs (stripWs text) with _ | ⟨word, rest⟩
  · rw [wrapTextToWidth_eq_of_nil w maxW hsp] at hline
    simp only [List.mem_singleton] at hline
    subst hline
    exact Or.inl hempty
  · rw [wrapTextToWidth_eq_of_cons w maxW hsp] at hline
    have hres := wrapWords_width_invariant w maxW (word :: rest) rest word
      (Or.inr (by simp)) (fun x hx => by simp [hx]) line hline
    rcases hres with h | h
    · exact Or.inl h
    · have hmem : line ∈ splitWs text := by
        rw [← splitWs_stripWs text, hsp]
        exact h
      have hok := mem_splitWs_nonempty_noWs line hmem
      exact Or.inr ⟨hmem, hok.1, hok.2⟩

/-- Witness for C5 at a concrete input: text `"aa bb"` wrapped at width 4
under the one-unit-per-character metric. -/
theorem C5_wrap_width_invariant_witness :
    (lenW [] ≤ 4 ∧ ['a', 'a'] ∈ wrapTextToWidth lenW 4 ['a', 'a', ' ', 'b', 'b']) ∧
    (lenW ['a', 'a'] ≤ 4 ∨ (['a', 'a'] ∈ splitWs ['a', 'a', ' ', 'b', 'b'] ∧
      ['a', 'a'] ≠ [] ∧ ∀ c ∈ ['a', 'a'], isWs c = false)) := by
  have h1 : lenW [] ≤ 4 := by simp +decide [lenW]
  have h2 : ['a', 'a'] ∈ wrapTextToWidth lenW 4 ['a', 'a', ' ', 'b', 'b'] := by
    simp +decide [wrapTextToWidth, stripWs, splitWs, wrapWords, lenW, isWs]
  exact ⟨⟨h1, h2⟩, C5_wrap_width_invariant lenW 4 ['a', 'a', ' ', 'b', 'b'] h1 ['a', 'a'] h2⟩

/-- C6: wrapping is idempotent — every line produced by
`wrap_text_to_width` re-wraps at the same width to exactly itself as a
single-element result. -/
theorem C6_wrap_idempotent (w : List Char → ℚ) (maxW : ℚ) (text : List Char) :
    ∀ line ∈ wrapTextToWidth w maxW text, wrapTextToWidth w maxW line = [line] := by
  intro line hline
  rcases hsp : splitWs (stripWs text) with _ | ⟨word, rest⟩
  · rw [wrapTextToWidth_eq_of_nil w maxW hsp] at hline
    simp only [List.mem_singleton] at hline
    subst hline
    exact wrapTextToWidth_eq_of_nil w maxW (by rw [show stripWs [] = [] from rfl, splitWs])
  · rw [wrapTextToWidth_eq_of_cons w maxW hsp] at hline
    have hwords : ∀ x ∈ word :: rest, WordOk x := by
      intro x hx
      have hx2 : x ∈ splitWs (stripWs text) := by rw [hsp]; exact hx
      have h := mem_splitWs_nonempty_noWs x hx2
      exact ⟨h.1, h.2⟩
    have hgood := goodLine_of_mem_wrapWords w maxW rest word
      ⟨word, [], by rw [joinSpace_cons, tailJoin_nil, List.append_nil],
        fun x hx => by
          rcases List.mem_cons.mp hx with rfl | hx
          · exact hwords x (by simp)
          · simp at hx,
        trivial⟩
      (fun x hx => hwords x (by simp [hx])) line hline
    obtain ⟨hd, tl, rfl, hok, hchain⟩ := hgood
    have hsplit : splitWs (stripWs (joinSpace (hd :: tl))) = hd :: tl := by
      rw [splitWs_stripWs]
      exact splitWs_joinSpace (by simp) hok
    rw [wrapTextToWidth_eq_of_cons w maxW hsplit]
    rw [wrapWords_of_chainOk w maxW tl hd hchain, joinSpace_cons]

/-- Witness for C6 at a concrete input: the first output line of
wrapping `"aa bb"` at width 4 re-wraps to itself. -/
theorem C6_wrap_idempotent_witness :
    ['a', 'a'] ∈ wrapTextToWidth lenW 4 ['a', 'a', ' ', 'b', 'b'] ∧
    wrapTextToWidth lenW 4 ['a', 'a'] = [['a', 'a']] := by
  have h2 : ['a', 'a'] ∈ wrapTextToWidth lenW 4 ['a', 'a', ' ', 'b', 'b'] := by
    simp +decide [wrapTextToWidth, stripWs, splitWs, wrapWords, lenW, isWs]
  exact ⟨h2, C6_wrap_idempotent lenW 4 ['a', 'a', ' ', 'b', 'b'] ['a', 'a'] h2⟩

/-- C10: word wrapping preserves content — joining the produced lines
with single spaces yields the input with its whitespace normalized, and
in particular the whitespace-delimited words of the joined output are
exactly those of the input, in order. -/
theorem C10_wrap_preserves_content (w : List Char → ℚ) (maxW : ℚ) (text : List Char) :
    joinSpace (wrapTextToWidth w maxW text) = normalizeWs text ∧
    splitWs (joinSpace (wrapTextToWidth w maxW text)) = splitWs text := by
  have h1 : joinSpace (wrapTextToWidth w maxW text) = normalizeWs text := by
    rcases hsp : splitWs (stripWs text) with _ | ⟨word, rest⟩
    · rw [wrapTextToWidth_eq_of_nil w maxW hsp]
      unfold normalizeWs
      rw [← splitWs_stripWs text, hsp]
      rw [joinSpace, joinSpace_cons, tailJoin_nil, List.append_nil]
    · rw [wrapTextToWidth_eq_of_cons w maxW hsp]
      unfold normalizeWs
      rw [← splitWs_stripWs text, hsp, joinSpace_wrapWords, joinSpace_cons]
  refine ⟨h1, ?_⟩
  rw [h1]
  unfold normalizeWs
  rcases hsp : splitWs text with _ | ⟨word, rest⟩
  · rw [joinSpace, splitWs]
  · have hok : ∀ x ∈ word :: rest, WordOk x := by
      intro x hx
      have hx2 : x ∈ splitWs text := by rw [hsp]; exact hx
      have h := mem_splitWs_nonempty_noWs x hx2
      exact ⟨h.1, h.2⟩
    exact splitWs_joinSpace (by simp) hok

/-! ### Python numeric parsing and money formatting

`safe_money` / `normalize_fee_value` (app.py 165–169, 379–390) strip
`$`, `,` and outer whitespace and call Python `float()`, mapping a
`ValueError` to `0.0`.  `float()` is modelled on finite decimal
literals: optional sign, digits with an optional decimal point, and an
optional exponent (the exotic inputs `inf`/`nan`/underscore separators
are outside the model). -/

def natOfDigits (l : List Char) : ℕ :=
  l.foldl (fun acc c => 10 * acc + (c.toNat - '0'.toNat)) 0

/-- The mantissa of a Python float literal, returning its exact value
and the unconsumed input. -/
def parseMantissa (l : List Char) : Option (ℚ × List Char) :=
  let d1 := l.takeWhile Char.isDigit
  let r1 := l.dropWhile Char.isDigit
  match r1 with
  | '.' :: t =>
    let d2 := t.takeWhile Char.isDigit
    let r2 := t.dropWhile Char.isDigit
    if d1 = [] ∧ d2 = [] then none
    else some ((natOfDigits d1 : ℚ) + (natOfDigits d2 : ℚ) / 10 ^ d2.length, r2)
  | r =>
    if d1 = [] then none else some ((natOfDigits d1 : ℚ), r)

/-- The optional exponent suffix of a Python float literal, as a
multiplier; `none` on a malformed or non-empty leftover suffix. -/
def parseExpPart : List Char → Option ℚ
  | [] => some 1
  | c :: t =>
    if c = 'e' ∨ c = 'E' then
      let (eneg, t1) : Bool × List Char :=
        match t with
        | '+' :: u => (false, u)
        | '-' :: u => (true, u)
        | u => (false, u)
      let ed := t1.takeWhile Char.isDigit
      let er := t1.dropWhile Char.isDigit
      if ed = [] then none
      else if er = [] then
        some (if eneg then 1 / 10 ^ natOfDigits ed else 10 ^ natOfDigits ed)
      else none
    else none

/-- Python `float(s)` on a finite decimal literal: `some` of its exact
value, `none` where `float()` raises `ValueError`. -/
def pyFloatOpt (l : List Char) : Option ℚ :=
  let (sgn, l1) : ℚ × List Char :=
    match l with
    | '+' :: t => (1, t)
    | '-' :: t => ((-1 : ℚ), t)
    | t => (1, t)
  match parseMantissa l1 with
  | none => none
  | some (m, r) =>
    match parseExpPart r with
    | none => none
    | some mult => some (sgn * m * mult)

/-- `str(value).replace("$", "").replace(",", "").strip()`: replacing a
single-character substring by the empty string removes every occurrence
of that character. -/
def cleanMoney (l : List Char) : List Char :=
  stripWs ((l.filter (fun c => c ≠ '$')).filter (fun c => c ≠ ','))

/-- `safe_money` (app.py 165–169): `float(cleaned or 0)` with
`ValueError` mapped to `0.0`.  (`float(0)` for the empty cleaned string
and the `none` branch of the parser both give `0`.) -/
def safe_money (l : List Char) : ℚ :=
  match pyFloatOpt (cleanMoney l) with
  | some v => v
  | none => 0

/-- A Python value reaching `normalize_fee_value`: `None`, a number, or
a string. -/
inductive PyVal where
  | none
  | num (v : ℚ)
  | str (s : List Char)

/-- `normalize_fee_value` (app.py 379–390). -/
def normalize_fee_value : PyVal → ℚ
  | .none => 0
  | .num v => v
  | .str s =>
    if cleanMoney s = [] then 0
    else
      match pyFloatOpt (cleanMoney s) with
      | some v => v
      | none => 0

/-- Round a rational to the nearest integer, ties to even — the rounding
Python's fixed-point string formatting applies. -/
def roundHalfEven (q : ℚ) : ℤ :=
  let f := ⌊q⌋
  let r := q - f
  if r < 1 / 2 then f
  else if 1 / 2 < r then f + 1
  else if f % 2 = 0 then f else f + 1

/-- Group a reversed digit string in threes, inserting commas. -/
def commaGroupRev : List Char → List Char
  | a :: b :: c :: d :: t => a :: b :: c :: ',' :: commaGroupRev (d :: t)
  | l => l

/-- Thousands separators for a digit string. -/
def commaGroup (ds : List Char) : List Char :=
  (commaGroupRev ds.reverse).reverse

def natDigits (n : ℕ) : List Char := Nat.toDigits 10 n

/-- Render an exact number of cents as a currency string: dollar sign,
optional minus, thousands separators, exactly two decimal places. -/
def fmtCents (cents : ℤ) : List Char :=
  let a := cents.natAbs
  let sign : List Char := if cents < 0 then ['-'] else []
  let frac2 : List Char := if a % 100 < 10 then '0' :: natDigits (a % 100) else natDigits (a % 100)
  '$' :: (sign ++ commaGroup (natDigits (a / 100)) ++ '.' :: frac2)

/-- `fmt_money` (app.py 224–225): Python `f"${amount:,.2f}"` on the
exact rational amount — currency with ties rounded to even. -/
def fmt_money (amount : ℚ) : List Char := fmtCents (roundHalfEven (amount * 100))

/-! ### Python date parsing (app.py 180–190)

`parse_date` tries `strptime` with formats `%Y-%m-%d`, `%m/%d/%Y`,
`%Y/%m/%d` in order; on empty input or if all formats fail it returns
the first day of the current month.  `%Y` matches exactly four digits,
`%m`/`%d` one or two; `datetime` then validates the calendar date
(month 1–12, day within the month, year ≥ 1), raising `ValueError`
otherwise, which `parse_date` treats as a format mismatch. -/

structure PyDate where
  year : ℕ
  month : ℕ
  day : ℕ
deriving DecidableEq

def isLeapYear (y : ℕ) : Bool := y % 4 = 0 && (y % 100 ≠ 0 || y % 400 = 0)

def daysInMonth (y m : ℕ) : ℕ :=
  if m = 2 then (if isLeapYear y then 29 else 28)
  else if m = 4 ∨ m = 6 ∨ m = 9 ∨ m = 11 then 30
  else 31

def validYmd (y m d : ℕ) : Bool :=
  1 ≤ y && y ≤ 9999 && 1 ≤ m && m ≤ 12 && 1 ≤ d && d ≤ daysInMonth y m

/-- `strptime` with format year-month-day and the given literal
separator (`"%Y-%m-%d"` / `"%Y/%m/%d"`). -/
def parseYmd (sep : Char) (l : List Char) : Option PyDate :=
  let yd := l.takeWhile Char.isDigit
  match l.dropWhile Char.isDigit with
  | s1 :: r2 =>
    if s1 = sep ∧ yd.length = 4 then
      let md := r2.takeWhile Char.isDigit
      match r2.dropWhile Char.isDigit with
      | s2 :: r4 =>
        if s2 = sep ∧ (md.length = 1 ∨ md.length = 2) then
          let dd := r4.takeWhile Char.isDigit
          if r4.dropWhile Char.isDigit = [] ∧ (dd.length = 1 ∨ dd.length = 2) ∧
              validYmd (natOfDigits yd) (natOfDigits md) (natOfDigits dd) then
            some ⟨natOfDigits yd, natOfDigits md, natOfDigits dd⟩
          else none
        else none
      | [] => none
    else none
  | [] => none

/-- `strptime` with format `"%m/%d/%Y"`. -/
def parseMdy (sep : Char) (l : List Char) : Option PyDate :=
  let md := l.takeWhile Char.isDigit
  match l.dropWhile Char.isDigit with
  | s1 :: r2 =>
    if s1 = sep ∧ (md.length = 1 ∨ md.length = 2) then
      let dd := r2.takeWhile Char.isDigit
      match r2.dropWhile Char.isDigit with
      | s2 :: r4 =>
        if s2 = sep ∧ (dd.length = 1 ∨ dd.length = 2) then
          let yd := r4.takeWhile Char.isDigit
          if r4.dropWhile Char.isDigit = [] ∧ yd.length = 4 ∧
              validYmd (natOfDigits yd) (natOfDigits md) (natOfDigits dd) then
            some ⟨natOfDigits yd, natOfDigits md, natOfDigits dd⟩
          else none
        else none
      | [] => none
    else none
  | [] => none

def first_of_month (d : PyDate) : PyDate := ⟨d.year, d.month, 1⟩

/-- `parse_date` (app.py 180–190), with the current date passed in
explicitly. -/
def parse_date (today : PyDate) (l : List Char) : PyDate :=
  if l = [] then first_of_month today
  else
    match parseYmd '-' l with
    | some d => d
    | none =>
      match parseMdy '/' l with
      | some d => d
      | none =>
        match parseYmd '/' l with
        | some d => d
        | none => first_of_month today

theorem pyFloatOpt_nil : pyFloatOpt [] = none := rfl

/-- C8: malformed upstream values never raise and are normalized to safe
defaults — `safe_money` and `normalize_fee_value` return `0.0` when the
(cleaned) string is not parseable as a number and the parsed value
otherwise, and `parse_date` returns the first day of the current month
when the string is empty or matches none of the accepted date
formats. -/
theorem C8_malformed_input_defaults :
    (∀ l : List Char, pyFloatOpt (cleanMoney l) = none → safe_money l = 0) ∧
    (∀ (l : List Char) (v : ℚ), pyFloatOpt (cleanMoney l) = some v → safe_money l = v) ∧
    (∀ l : List Char, pyFloatOpt (cleanMoney l) = none → normalize_fee_value (.str l) = 0) ∧
    (∀ (l : List Char) (v : ℚ), pyFloatOpt (cleanMoney l) = some v →
      normalize_fee_value (.str l) = v) ∧
    (∀ today : PyDate, parse_date today [] = first_of_month today) ∧
    (∀ (today : PyDate) (l : List Char), parseYmd '-' l = none → parseMdy '/' l = none →
      parseYmd '/' l = none → parse_date today l = first_of_month today) := by
  refine ⟨?_, ?_, ?_, ?_, ?_, ?_⟩
  · intro l h
    unfold safe_money
    rw [h]
  · intro l v h
    unfold safe_money
    rw [h]
  · intro l h
    simp only [normalize_fee_value]
    by_cases hc : cleanMoney l = []
    · rw [if_pos hc]
    · rw [if_neg hc, h]
  · intro l v h
    simp only [normalize_fee_value]
    by_cases hc : cleanMoney l = []
    · rw [hc, pyFloatOpt_nil] at h
      exact absurd h (by simp)
    · rw [if_neg hc, h]
  · intro today
    unfold parse_date
    rw [if_pos rfl]
  · intro today l h1 h2 h3
    unfold parse_date
    by_cases hl : l = []
    · rw [if_pos hl]
    · rw [if_neg hl, h1, h2, h3]

/-- Witness for C8 at concrete inputs: `"abc"` is unparseable money and
gives `0`, `"$1,234.50"` parses to `1234.5`, and `"13/45/2020"` matches
no accepted date format and yields the first of the current month. -/
theorem C8_malformed_input_defaults_witness :
    (pyFloatOpt (cleanMoney ['a', 'b', 'c']) = none ∧ safe_money ['a', 'b', 'c'] = 0) ∧
    (pyFloatOpt (cleanMoney ['$', '1', ',', '2', '3', '4', '.', '5', '0']) = some (2469 / 2) ∧
      safe_money ['$', '1', ',', '2', '3', '4', '.', '5', '0'] = 2469 / 2 ∧
      normalize_fee_value (.str ['$', '1', ',', '2', '3', '4', '.', '5', '0']) = 2469 / 2) ∧
    (parseYmd '-' ['1', '3', '/', '4', '5', '/', '2', '0', '2', '0'] = none ∧
      parseMdy '/' ['1', '3', '/', '4', '5', '/', '2', '0', '2', '0'] = none ∧
      parseYmd '/' ['1', '3', '/', '4', '5', '/', '2', '0', '2', '0'] = none ∧
      parse_date ⟨2026, 10, 12⟩ ['1', '3', '/', '4', '5', '/', '2', '0', '2', '0'] =
        first_of_month ⟨2026, 10, 12⟩) := by
  have h1 : pyFloatOpt (cleanMoney ['a', 'b', 'c']) = none := by decide
  have h2 : pyFloatOpt (cleanMoney ['$', '1', ',', '2', '3', '4', '.', '5', '0']) =
      some (2469 / 2) := by
    simp +decide [pyFloatOpt, parseMantissa, parseExpPart, cleanMoney, stripWs, isWs, natOfDigits]
    norm_num
  have hd1 : parseYmd '-' ['1', '3', '/', '4', '5', '/', '2', '0', '2', '0'] = none := by decide
  have hd2 : parseMdy '/' ['1', '3', '/', '4', '5', '/', '2', '0', '2', '0'] = none := by decide
  have hd3 : parseYmd '/' ['1', '3', '/', '4', '5', '/', '2', '0', '2', '0'] = none := by decide
  exact ⟨⟨h1, C8_malformed_input_defaults.1 _ h1⟩,
    ⟨h2, C8_malformed_input_defaults.2.1 _ _ h2, C8_malformed_input_defaults.2.2.2.1 _ _ h2⟩,
    ⟨hd1, hd2, hd3, C8_malformed_input_defaults.2.2.2.2.2 ⟨2026, 10, 12⟩ _ hd1 hd2 hd3⟩⟩

/-! ### `sort_rows_by_fee_desc` (app.py 351–360)

`normalize_service_rows` resolves every row to fixed keys with a string
service label and a numeric fee (`normalize_fee_value` of a numeric
value is the value itself), so the sort operates on these two fields.
Python `sorted` with key `(service.strip().endswith("Support"), -fee)`
is a stable sort by that key under lexicographic tuple comparison with
`False < True`; it is modelled by `List.insertionSort` with the
corresponding total preorder, which is likewise stable (each element is
inserted before the key-equal elements already placed, all of which
come from later input positions). -/

structure ServiceRow where
  service : List Char
  fee : ℚ
deriving DecidableEq

/-- `str(row.get("service", "")).strip().endswith("Support")`. -/
def endsSupport (r : ServiceRow) : Bool :=
  ['S', 'u', 'p', 'p', 'o', 'r', 't'].isSuffixOf (stripWs r.service)

/-- The Python sort key `(endswith-Support, -fee)`. -/
def rowKey (r : ServiceRow) : Bool × ℚ := (endsSupport r, -r.fee)

/-- Lexicographic order on the key tuples, `False < True` on booleans as
in Python. -/
def keyLe (a b : Bool × ℚ) : Prop :=
  (a.1 = false ∧ b.1 = true) ∨ (a.1 = b.1 ∧ a.2 ≤ b.2)

instance keyLe.decidable : ∀ a b : Bool × ℚ, Decidable (keyLe a b) := by
  intro a b
  unfold keyLe
  infer_instance

def rowLe (a b : ServiceRow) : Prop := keyLe (rowKey a) (rowKey b)

instance rowLe.decidable : DecidableRel rowLe := by
  intro a b
  unfold rowLe
  infer_instance

instance rowLe.total : IsTotal ServiceRow rowLe := by
  constructor
  intro a b
  unfold rowLe keyLe
  rcases hA : (rowKey a).1 with _ | _ <;> rcases hB : (rowKey b).1 with _ | _ <;>
    rcases le_total (rowKey a).2 (rowKey b).2 with h | h <;> tauto

instance rowLe.trans : IsTrans ServiceRow rowLe := by
  constructor
  intro a b c hab hbc
  unfold rowLe keyLe at hab hbc ⊢
  rcases hab with ⟨ha, hb⟩ | ⟨hab, hab2⟩ <;> rcases hbc with ⟨hb2, hc⟩ | ⟨hbc, hbc2⟩
  · rw [hb] at hb2; exact absurd hb2 (by simp)
  · exact Or.inl ⟨ha, hbc ▸ hb⟩
  · exact Or.inl ⟨hab ▸ hb2, hc⟩
  · exact Or.inr ⟨hab.trans hbc, hab2.trans hbc2⟩

theorem keyLe_refl (a : Bool × ℚ) : keyLe a a := Or.inr ⟨rfl, le_refl _⟩

theorem rowKey_eq_of_not_le {a b : ServiceRow} (h : ¬rowLe a b) : rowKey a ≠ rowKey b := by
  intro heq
  exact h (Or.inr ⟨congrArg Prod.fst heq, heq ▸ le_refl _⟩)

/-- `sort_rows_by_fee_desc` (app.py 351–360). -/
def sort_rows_by_fee_desc (rows : List ServiceRow) : List ServiceRow :=
  List.insertionSort rowLe rows

/-- Inserting into a list commutes with filtering on an exact key value:
the inserted element lands after every key-equal element it passes. -/
theorem filter_key_orderedInsert (a : ServiceRow) (k : Bool × ℚ) :
    ∀ l : List ServiceRow,
      (List.orderedInsert rowLe a l).filter (fun r => decide (rowKey r = k)) =
        if rowKey a = k then a :: l.filter (fun r => decide (rowKey r = k))
        else l.filter (fun r => decide (rowKey r = k)) := by
  intro l
  induction l with
  | nil =>
    by_cases hk : rowKey a = k
    · simp [List.orderedInsert, List.filter, hk]
    · simp [List.orderedInsert, List.filter, hk]
  | cons b t ih =>
    by_cases hle : rowLe a b
    · rw [List.orderedInsert_of_le _ _ hle]
      by_cases hk : rowKey a = k
      · simp [List.filter_cons, hk]
      · simp [List.filter_cons, hk]
    · have hne : rowKey a ≠ rowKey b := rowKey_eq_of_not_le hle
      rw [show List.orderedInsert rowLe a (b :: t) = b :: List.orderedInsert rowLe a t from by
        simp [List.orderedInsert, hle]]
      by_cases hk : rowKey a = k
      · have hbk : ¬rowKey b = k := fun hbk => hne (hk.trans hbk.symm)
        simp only [List.filter_cons, decide_eq_true_eq, if_neg hbk, ih, if_pos hk]
      · simp only [List.filter_cons, decide_eq_true_eq, ih, if_neg hk]

/-- Stability of the modelled sort: the subsequence of rows with any
fixed key value is unchanged. -/
theorem filter_key_sort (k : Bool × ℚ) :
    ∀ rows : List ServiceRow,
      (sort_rows_by_fee_desc rows).filter (fun r => decide (rowKey r = k)) =
        rows.filter (fun r => decide (rowKey r = k)) := by
  intro rows
  induction rows with
  | nil => rfl
  | cons a t ih =>
    unfold sort_rows_by_fee_desc at ih ⊢
    rw [List.insertionSort, filter_key_orderedInsert a k, ih, List.filter_cons]
    by_cases hk : rowKey a = k
    · simp [hk]
    · simp [hk]

/-- A `rowLe`-sorted list is its non-Support rows followed by its
Support rows. -/
theorem sorted_partition_support :
    ∀ {l : List ServiceRow}, l.Pairwise rowLe →
      l = l.filter (fun r => !endsSupport r) ++ l.filter (fun r => endsSupport r) := by
  intro l
  induction l with
  | nil => intro _; rfl
  | cons c t ih =>
    intro hp
    rcases List.pairwise_cons.mp hp with ⟨hc, ht⟩
    by_cases hs : endsSupport c
    · have hall : ∀ x ∈ t, endsSupport x = true := by
        intro x hx
        rcases hc x hx with ⟨h1, _⟩ | ⟨h1, _⟩
        · rw [rowKey] at h1
          simp only [rowKey] at h1
          rw [hs] at h1
          exact absurd h1 (by simp)
        · simp only [rowKey] at h1
          rw [hs] at h1
          exact h1.symm
      have hfn : t.filter (fun r => !endsSupport r) = [] := by
        rw [List.filter_eq_nil_iff]
        intro x hx
        simp [hall x hx]
      have hfs : (c :: t).filter (fun r => endsSupport r) = c :: t := by
        rw [List.filter_eq_self]
        intro x hx
        rcases List.mem_cons.mp hx with rfl | hx
        · exact hs
        · exact hall x hx
      rw [hfs, List.filter_cons_of_neg (by simp [hs]), hfn]
      rfl
    · rw [List.filter_cons_of_pos (by simp [hs]), List.filter_cons_of_neg (by simpa using hs)]
      rw [List.cons_append]
      exact congrArg (c :: ·) (ih ht)

/-- In a `rowLe`-sorted list, the non-Support rows are in descending
fee order. -/
theorem sorted_nonsupport_desc {l : List ServiceRow} (hp : l.Pairwise rowLe) :
    (l.filter (fun r => !endsSupport r)).Pairwise (fun a b => b.fee ≤ a.fee) := by
  have hfilter := hp.filter (p := fun r => !endsSupport r)
  refine hfilter.imp_of_mem ?_
  intro a b ha hb hle
  have hA : endsSupport a = false := by
    have := (List.mem_filter.mp ha).2
    simpa using this
  have hB : endsSupport b = false := by
    have := (List.mem_filter.mp hb).2
    simpa using this
  rcases hle with ⟨_, h1⟩ | ⟨_, h2⟩
  · simp only [rowKey] at h1
    rw [hB] at h1
    exact absurd h1 (by simp)
  · simp only [rowKey] at h2
    have : -a.fee ≤ -b.fee := h2
    linarith

/-- C2: sorting for layout places every row whose (stripped) service
label ends with "Support" after all rows whose label does not, orders
the non-Support rows by descending fee amount, and preserves the
original relative order of rows with equal sort key — equal fee within
the same Support class, which is the tie the descending ordering can
leave (a stable sort); on the spec's example, fees [10, 50, 10] with
labels [A, B, C], none ending "Support", sort to [B, A, C] with A
before C. -/
theorem C2_sort_rows_spec :
    (∀ rows : List ServiceRow,
      sort_rows_by_fee_desc rows =
        (sort_rows_by_fee_desc rows).filter (fun r => !endsSupport r) ++
          (sort_rows_by_fee_desc rows).filter (fun r => endsSupport r) ∧
      ((sort_rows_by_fee_desc rows).filter (fun r => !endsSupport r)).Pairwise
        (fun a b => b.fee ≤ a.fee) ∧
      ∀ k : Bool × ℚ, (sort_rows_by_fee_desc rows).filter (fun r => decide (rowKey r = k)) =
        rows.filter (fun r => decide (rowKey r = k))) ∧
    sort_rows_by_fee_desc [⟨['A'], 10⟩, ⟨['B'], 50⟩, ⟨['C'], 10⟩] =
      [⟨['B'], 50⟩, ⟨['A'], 10⟩, ⟨['C'], 10⟩] := by
  constructor
  · intro rows
    have hp : (sort_rows_by_fee_desc rows).Pairwise rowLe :=
      List.sorted_insertionSort rowLe rows
    exact ⟨sorted_partition_support hp, sorted_nonsupport_desc hp,
      fun k => filter_key_sort k rows⟩
  · simp +decide [sort_rows_by_fee_desc, List.insertionSort, List.orderedInsert, rowLe,
      keyLe, rowKey, endsSupport, stripWs, isWs]

/-! ### reportlab canvas page-flow state

The canvas graphics state tracked here: page index, vertical cursor,
active font and active fill colour.  `Canvas.showPage` in reportlab
finalizes the current page, starts a new one, and resets the graphics
state to its defaults (font Helvetica 12, black fill): state changes do
not survive a page break.  The page size is LETTER (612 × 792 points);
`draw_agreement_section` uses a bottom margin of 40 and resets the
cursor to `height - 56` after a break. -/

structure PageState where
  page : ℕ
  y : ℚ
  fontName : String
  fontSize : ℚ
  fill : String
deriving DecidableEq

def letterWidth : ℚ := 612
def letterHeight : ℚ := 792
def minBottomMargin : ℚ := 40
def defaultFontName : String := "Helvetica"
def defaultFontSize : ℚ := 12
def blackColor : String := "black"

/-- `c.showPage()`: new page, graphics state reset to defaults. -/
def showPageS (s : PageState) : PageState :=
  { page := s.page + 1, y := s.y, fontName := defaultFontName, fontSize := defaultFontSize,
    fill := blackColor }

def setFillColorS (color : String) (s : PageState) : PageState := { s with fill := color }

def setFontS (name : String) (size : ℚ) (s : PageState) : PageState :=
  { s with fontName := name, fontSize := size }

def setY (v : ℚ) (s : PageState) : PageState := { s with y := v }

/-- `ensure_space` (app.py 747–752): if the cursor minus the required
height would cross the bottom margin, show a new page, set the fill
colour to black and reset the cursor to `height - 56`. -/
def ensure_space (requiredHeight : ℚ) (s : PageState) : PageState :=
  if s.y - requiredHeight < minBottomMargin then
    setY (letterHeight - 56) (setFillColorS blackColor (showPageS s))
  else s

/-- C3: whenever the remaining space above the bottom margin is less
than the required height, `ensure_space` triggers exactly one page
transition — the page index increases by exactly one — and the
post-transition cursor equals the top margin `height - 56` exactly,
with no residual offset from the previous page. -/
theorem C3_ensure_space_break (requiredHeight : ℚ) (s : PageState)
    (hlt : s.y - minBottomMargin < requiredHeight) :
    (ensure_space requiredHeight s).page = s.page + 1 ∧
    (ensure_space requiredHeight s).y = letterHeight - 56 := by
  have hc : s.y - requiredHeight < minBottomMargin := by
    unfold minBottomMargin at hlt ⊢
    linarith
  unfold ensure_space
  rw [if_pos hc]
  exact ⟨rfl, rfl⟩

/-- Witness for C3: a cursor at 100 with 100 points required (only 60
remain) breaks to a fresh page with the cursor exactly at 736. -/
theorem C3_ensure_space_break_witness :
    ((⟨0, 100, "F", 10, "red"⟩ : PageState).y - minBottomMargin < 100) ∧
    (ensure_space 100 ⟨0, 100, "F", 10, "red"⟩).page = 0 + 1 ∧
    (ensure_space 100 ⟨0, 100, "F", 10, "red"⟩).y = letterHeight - 56 := by
  have h : ((⟨0, 100, "F", 10, "red"⟩ : PageState).y - minBottomMargin < 100) := by
    norm_num [minBottomMargin]
  exact ⟨h, C3_ensure_space_break 100 ⟨0, 100, "F", 10, "red"⟩ h⟩

/-- The graphics-state effect of the page break inside `ensure_space`:
`c.showPage(); c.setFillColor(black)` (app.py 750–751). -/
def ensureSpaceBreak (s : PageState) : PageState := setFillColorS blackColor (showPageS s)

/-- The page break in the rich-token loop (app.py 793–796) and in the
usage-terms loop (app.py 1254–1257): `c.showPage();
c.setFillColor(black); c.setFont(font_regular, 10)`. -/
def richTextBreak (fontRegular : String) (s : PageState) : PageState :=
  setFontS fontRegular 10 (setFillColorS blackColor (showPageS s))

/-- C4: every page break performed during rendering leaves the active
font and fill colour at values independent of the state before the
break — nothing persists.  At the `ensure_space` sites the post-break
state is the showPage default font with the explicitly reset black
fill; at the rich-text and usage-terms sites the font is explicitly
re-set to the regular font at size 10. -/
theorem C4_page_break_resets_state (fontRegular : String) (s t : PageState) :
    ((ensureSpaceBreak s).fontName = defaultFontName ∧
     (ensureSpaceBreak s).fontSize = defaultFontSize ∧
     (ensureSpaceBreak s).fill = blackColor) ∧
    ((richTextBreak fontRegular s).fontName = fontRegular ∧
     (richTextBreak fontRegular s).fontSize = 10 ∧
     (richTextBreak fontRegular s).fill = blackColor) ∧
    (ensureSpaceBreak s).fontName = (ensureSpaceBreak t).fontName ∧
    (ensureSpaceBreak s).fontSize = (ensureSpaceBreak t).fontSize ∧
    (ensureSpaceBreak s).fill = (ensureSpaceBreak t).fill ∧
    (richTextBreak fontRegular s).fontName = (richTextBreak fontRegular t).fontName ∧
    (richTextBreak fontRegular s).fontSize = (richTextBreak fontRegular t).fontSize ∧
    (richTextBreak fontRegular s).fill = (richTextBreak fontRegular t).fill := by
  refine ⟨⟨rfl, rfl, rfl⟩, ⟨rfl, rfl, rfl⟩, rfl, rfl, rfl, rfl, rfl, rfl⟩

theorem roundHalfEven_intCast (n : ℤ) : roundHalfEven (n : ℚ) = n := by
  unfold roundHalfEven
  rw [Int.floor_intCast]
  norm_num

/-! ### The services table (app.py 1104–1214)

The table-drawing segment of `create_branded_pdf` is modelled as the
stream of canvas operations it emits.  Inputs: the string-width metric
`sw fontName size text` abstracting `c.stringWidth`, the normalized
service rows, the warehouse type selecting the column set, the cursor
position `top` at which the table starts, and the displayed date
strings.  Rows are post-`normalize_service_rows`: fixed string fields
plus a numeric fee (in the exact-rational model `safe_money(str(fee))`
is the fee itself, and `fee != ""` is always true for a Python float).
-/

inductive Op where
  | showPage
  | setFont (name : String) (size : ℚ)
  | setFillColor (color : String)
  | setStrokeColor (color : String)
  | drawString (x y : ℚ) (text : String)
  | drawCentredString (x y : ℚ) (text : String)
  | drawRightString (x y : ℚ) (text : String)
  | rect (x y w h : ℚ) (stroke fill : Bool)
  | line (x1 y1 x2 y2 : ℚ)
deriving DecidableEq

def Op.isPageBreak : Op → Bool
  | .showPage => true
  | _ => false

structure NormRow where
  subscription_period : List Char
  service : List Char
  annual_usage_commitment : List Char
  unit : List Char
  annual_service_fee : ℚ
deriving DecidableEq

/-- `table_columns_for_warehouse` (app.py 1344–1358): (field key,
display label) pairs; 4 columns in credit/usage mode, 5 otherwise. -/
def table_columns_for_warehouse (warehouseType : String) : List (String × String) :=
  if warehouseType = "Credit" ∨ warehouseType = "Credit/Usage Based" ∨
      warehouseType = "Usage Based Pricing" then
    [("subscription_period", "Subscription Term"), ("service", "Services"),
     ("annual_usage_commitment", "Credits"), ("annual_service_fee", "Annual Fee")]
  else
    [("subscription_period", "Subscription Period"), ("service", "Service"),
     ("annual_usage_commitment", "Annual Usage Commitment"), ("unit", "Unit"),
     ("annual_service_fee", "Annual Service Fee")]

/-- `str(row.get(key, ""))` for the string-valued columns of a
normalized row. -/
def rowGetStr (r : NormRow) (key : String) : List Char :=
  if key = "subscription_period" then r.subscription_period
  else if key = "service" then r.service
  else if key = "annual_usage_commitment" then r.annual_usage_commitment
  else if key = "unit" then r.unit
  else []

/-- The text a body cell holds: the fee column is formatted with
`fmt_money(safe_money(str(value)))`, which on a numeric fee is
`fmt_money` of the fee; other columns draw the stored string. -/
def cellText (r : NormRow) (key : String) : List Char :=
  if key = "annual_service_fee" then fmt_money r.annual_service_fee
  else rowGetStr r key

def sumQ (l : List ℚ) : ℚ := l.foldl (· + ·) 0

/-- `[0.25, 0.23, 0.21, 0.12, 0.19]` for five columns, else
`[0.27, 0.33, 0.20, 0.20]`, each scaled by the table width. -/
def colWidths (tableW : ℚ) (n : ℕ) : List ℚ :=
  if n = 5 then
    [tableW * 0.25, tableW * 0.23, tableW * 0.21, tableW * 0.12, tableW * 0.19]
  else [tableW * 0.27, tableW * 0.33, tableW * 0.20, tableW * 0.20]

def maxNat (l : List ℕ) : ℕ := l.foldl max 0

/-- Header labels wrapped to their column width minus 8. -/
def headerWrapped (sw : String → ℚ → List Char → ℚ) (fontBold : String)
    (headers : List (List Char)) (colW : List ℚ) : List (List (List Char)) :=
  (headers.zip colW).map (fun hw => wrapTextToWidth (sw fontBold 10) (hw.2 - 8) hw.1)

/-- `head_h = max(24, max(wrapped line counts) * 10 + 8)`. -/
def headH (hw : List (List (List Char))) : ℚ :=
  max 24 ((maxNat (hw.map List.length) : ℚ) * 10 + 8)

/-- One row's cells wrapped to their column widths minus 8 (the merged
first column is skipped). -/
def rowWrapped (sw : String → ℚ → List Char → ℚ) (fontRegular : String)
    (spec : List (String × String)) (colW : List ℚ) (r : NormRow) :
    List (List (List Char)) :=
  ((spec.drop 1).zip (colW.drop 1)).map
    (fun kvw => wrapTextToWidth (sw fontRegular 10) (kvw.2 - 8) (cellText r kvw.1.1))

/-- `max(22, max_lines * 10 + 8)` with `max_lines` starting at 1. -/
def rowHeight (cells : List (List (List Char))) : ℚ :=
  max 22 ((maxNat (1 :: cells.map List.length) : ℚ) * 10 + 8)

/-- The centred lines of one header cell. -/
def headerCellOps (hH top x cw : ℚ) (lines : List (List Char)) : List Op :=
  let blockH : ℚ := (lines.length : ℚ) * 10
  let y0 := top - ((hH - blockH) / 2) - 8
  lines.enum.map (fun p => Op.drawCentredString (x + cw / 2) (y0 - (p.1 : ℚ) * 10) p.2.asString)

/-- The header text loop, threading the running x position. -/
def headerOpsGo (hH top : ℚ) : ℚ → List (List (List Char) × ℚ) → List Op
  | _, [] => []
  | x, (lines, cw) :: rest =>
    headerCellOps hH top x cw lines ++ headerOpsGo hH top (x + cw) rest

/-- The vertical column separators of the header band. -/
def colLineOps (top hH : ℚ) : ℚ → List ℚ → List Op
  | _, [] => []
  | x, w :: rest =>
    Op.setStrokeColor blackColor :: Op.line (x + w) top (x + w) (top - hH) ::
      colLineOps top hH (x + w) rest

/-- One body cell: its centred (or right-aligned, for the fee column)
lines, then its border rectangle when the raw value is non-blank. -/
def cellOps (key : String) (x cw rowTop rowH : ℚ) (raw : List Char)
    (lines : List (List Char)) : List Op :=
  let blockH : ℚ := (lines.length : ℚ) * 10
  let lineY := rowTop - ((rowH - blockH) / 2) - 8
  (lines.enum.map (fun p =>
    if key = "annual_service_fee" then
      Op.drawRightString (x + cw - 4) (lineY - (p.1 : ℚ) * 10) p.2.asString
    else Op.drawCentredString (x + cw / 2) (lineY - (p.1 : ℚ) * 10) p.2.asString)) ++
  (if stripWs raw ≠ [] then [Op.rect x (rowTop - rowH) cw rowH true false] else [])

/-- One row's cells, threading the running x position. -/
def rowCellsGo (rowTop rowH : ℚ) (r : NormRow) :
    ℚ → List ((String × String) × ℚ × List (List Char)) → List Op
  | _, [] => []
  | x, (kv, cwl) :: rest =>
    cellOps kv.1 x cwl.1 rowTop rowH (cellText r kv.1) cwl.2 ++
      rowCellsGo rowTop rowH r (x + cwl.1) rest

/-- The body rows, threading the descending y cursor. -/
def rowsGo (sw : String → ℚ → List Char → ℚ) (fontRegular : String)
    (spec : List (String × String)) (colW : List ℚ) (left : ℚ) :
    ℚ → List NormRow → List Op
  | _, [] => []
  | yCursor, r :: rest =>
    let cells := rowWrapped sw fontRegular spec colW r
    let rh := rowHeight cells
    rowCellsGo yCursor rh r (left + colW.headD 0)
        ((spec.drop 1).zip ((colW.drop 1).zip cells)) ++
      rowsGo sw fontRegular spec colW left (yCursor - rh) rest

/-- The total row (app.py 1199–1214): set the regular font; when more
than one column exists draw a "Total:" label centred in the
second-to-last column with its border; draw the summed total
right-aligned in the last column with its border. -/
def totalRowOps (fontRegular : String) (left : ℚ) (colW : List ℚ) (yTotalDivider : ℚ)
    (total : ℚ) : List Op :=
  let totalY := yTotalDivider - 15
  let lastColLeft := left + sumQ colW.dropLast
  let lastW := colW.getLastD 0
  let prevW := colW.dropLast.getLastD 0
  let prevColCenter := left + sumQ colW.dropLast.dropLast + prevW / 2
  (Op.setFont fontRegular 10 ::
    (if colW.length > 1 then
      [Op.setFillColor blackColor,
       Op.drawCentredString prevColCenter totalY "Total:",
       Op.rect (lastColLeft - prevW) (yTotalDivider - 22) prevW 22 true false]
     else [])) ++
  [Op.setFillColor blackColor,
   Op.drawRightString (lastColLeft + lastW - 4) totalY (fmt_money total).asString,
   Op.rect lastColLeft (yTotalDivider - 22) lastW 22 true false]

def blueColor : String := "#1f4675"
def whiteColor : String := "white"

/-- The complete operation stream of the services-table segment of
`create_branded_pdf` (app.py 1104–1214): header band and labels, header
column separators, total divider, merged period column, body rows, and
total row. -/
def servicesTableOps (sw : String → ℚ → List Char → ℚ) (fontRegular fontBold : String)
    (warehouseType : String) (services : List NormRow) (top : ℚ)
    (startStr endStr : List Char) : List Op :=
  let left : ℚ := 36
  let right : ℚ := letterWidth - 36
  let tableW := right - left
  let spec := table_columns_for_warehouse warehouseType
  let headers := spec.map (fun kv => kv.2.data)
  let colW := colWidths tableW spec.length
  let hw := headerWrapped sw fontBold headers colW
  let hH := headH hw
  let rowHs := services.map (fun r => rowHeight (rowWrapped sw fontRegular spec colW r))
  let yTotalDivider := top - hH - sumQ rowHs
  let periodText := startStr ++ ' ' :: '-' :: ' ' :: endStr
  let total := sumQ (services.map (fun r => r.annual_service_fee))
  [Op.setStrokeColor blackColor, Op.setFillColor blueColor,
   Op.rect left (top - hH) tableW hH true true,
   Op.setFillColor whiteColor, Op.setFont fontBold 10] ++
  headerOpsGo hH top left (hw.zip colW) ++
  colLineOps top hH left colW.dropLast ++
  [Op.line left yTotalDivider right yTotalDivider,
   Op.setFillColor blackColor, Op.setFont fontRegular 10,
   Op.drawCentredString (left + colW.headD 0 / 2) (((top - hH) + yTotalDivider) / 2 - 4)
     periodText.asString] ++
  (if stripWs periodText ≠ [] then
    [Op.rect left yTotalDivider (colW.headD 0) ((top - hH) - yTotalDivider) true false]
   else []) ++
  rowsGo sw fontRegular spec colW left (top - hH) services ++
  totalRowOps fontRegular left colW yTotalDivider total

theorem headerCellOps_noBreak (hH top x cw : ℚ) (lines : List (List Char)) :
    ∀ op ∈ headerCellOps hH top x cw lines, op.isPageBreak = false := by
  intro op hop
  simp only [headerCellOps, List.mem_map] at hop
  obtain ⟨p, _, rfl⟩ := hop
  rfl

theorem headerOpsGo_noBreak (hH top : ℚ) :
    ∀ (l : List (List (List Char) × ℚ)) (x : ℚ),
      ∀ op ∈ headerOpsGo hH top x l, op.isPageBreak = false := by
  intro l
  induction l with
  | nil => intro x op hop; simp [headerOpsGo] at hop
  | cons e rest ih =>
    intro x op hop
    rcases e with ⟨lines, cw⟩
    rw [headerOpsGo] at hop
    rcases List.mem_append.mp hop with h | h
    · exact headerCellOps_noBreak hH top x cw lines op h
    · exact ih (x + cw) op h

theorem colLineOps_noBreak (top hH : ℚ) :
    ∀ (l : List ℚ) (x : ℚ), ∀ op ∈ colLineOps top hH x l, op.isPageBreak = false := by
  intro l
  induction l with
  | nil => intro x op hop; simp [colLineOps] at hop
  | cons w rest ih =>
    intro x op hop
    rw [colLineOps] at hop
    rcases List.mem_cons.mp hop with rfl | hop
    · rfl
    · rcases List.mem_cons.mp hop with rfl | hop
      · rfl
      · exact ih (x + w) op hop

theorem cellOps_noBreak (key : String) (x cw rowTop rowH : ℚ) (raw : List Char)
    (lines : List (List Char)) :
    ∀ op ∈ cellOps key x cw rowTop rowH raw lines, op.isPageBreak = false := by
  intro op hop
  simp only [cellOps, List.mem_append, List.mem_map] at hop
  rcases hop with ⟨p, _, rfl⟩ | hop
  · split_ifs <;> rfl
  · by_cases hr : stripWs raw ≠ []
    · rw [if_pos hr] at hop
      simp only [List.mem_singleton] at hop
      subst hop
      rfl
    · rw [if_neg hr] at hop
      simp at hop

theorem rowCellsGo_noBreak (rowTop rowH : ℚ) (r : NormRow) :
    ∀ (l : List ((String × String) × ℚ × List (List Char))) (x : ℚ),
      ∀ op ∈ rowCellsGo rowTop rowH r x l, op.isPageBreak = false := by
  intro l
  induction l with
  | nil => intro x op hop; simp [rowCellsGo] at hop
  | cons e rest ih =>
    intro x op hop
    rcases e with ⟨kv, cwl⟩
    rw [rowCellsGo] at hop
    rcases List.mem_append.mp hop with h | h
    · exact cellOps_noBreak kv.1 x cwl.1 rowTop rowH (cellText r kv.1) cwl.2 op h
    · exact ih (x + cwl.1) op h

theorem rowsGo_noBreak (sw : String → ℚ → List Char → ℚ) (fontRegular : String)
    (spec : List (String × String)) (colW : List ℚ) (left : ℚ) :
    ∀ (rows : List NormRow) (y : ℚ),
      ∀ op ∈ rowsGo sw fontRegular spec colW left y rows, op.isPageBreak = false := by
  intro rows
  induction rows with
  | nil => intro y op hop; simp [rowsGo] at hop
  | cons r rest ih =>
    intro y op hop
    simp only [rowsGo] at hop
    rcases List.mem_append.mp hop with h | h
    · exact rowCellsGo_noBreak _ _ r _ _ op h
    · exact ih _ op h

theorem totalRowOps_noBreak (fontRegular : String) (left : ℚ) (colW : List ℚ)
    (yTd total : ℚ) :
    ∀ op ∈ totalRowOps fontRegular left colW yTd total, op.isPageBreak = false := by
  intro op hop
  simp only [totalRowOps, List.mem_append, List.mem_cons, List.mem_nil_iff, or_false] at hop
  rcases hop with hop | hop
  · rcases hop with rfl | hop
    · rfl
    · by_cases hc : colW.length > 1
      · rw [if_pos hc] at hop
        simp only [List.mem_cons, List.mem_nil_iff, or_false] at hop
        rcases hop with rfl | rfl | rfl <;> rfl
      · rw [if_neg hc] at hop
        simp at hop
  · rcases hop with rfl | rfl | rfl <;> rfl

/-- C7: drawing the services table never triggers a page break — for
every row list, width metric, warehouse type and starting cursor
(however the total table height compares to the remaining space on the
page), the emitted operation stream contains no page transition; every
header, body, merged-period and total-row operation lands on the
current page. -/
theorem C7_table_never_breaks_page (sw : String → ℚ → List Char → ℚ)
    (fontRegular fontBold warehouseType : String) (services : List NormRow) (top : ℚ)
    (startStr endStr : List Char) :
    ((servicesTableOps sw fontRegular fontBold warehouseType services top startStr
        endStr).all (fun op => !op.isPageBreak)) = true := by
  rw [List.all_eq_true]
  intro op hop
  suffices h : op.isPageBreak = false by simp [h]
  simp only [servicesTableOps, List.mem_append, List.mem_cons, List.mem_nil_iff,
    or_false] at hop
  rcases hop with
    ((((((rfl | rfl | rfl | rfl | rfl) | h) | h) | (rfl | rfl | rfl | rfl)) | h) | h) | h
  · rfl
  · rfl
  · rfl
  · rfl
  · rfl
  · exact headerOpsGo_noBreak _ _ _ _ op h
  · exact colLineOps_noBreak _ _ _ _ op h
  · rfl
  · rfl
  · rfl
  · rfl
  · revert h
    split
    · intro h
      simp only [List.mem_cons, List.mem_nil_iff, or_false] at h
      subst h
      rfl
    · intro h
      simp at h
  · exact rowsGo_noBreak _ _ _ _ _ _ _ op h
  · exact totalRowOps_noBreak _ _ _ _ _ op h

theorem totalRow_total_mem (fontRegular : String) (left : ℚ) (colW : List ℚ)
    (yTd total : ℚ) :
    Op.drawRightString (left + sumQ colW.dropLast + colW.getLastD 0 - 4) (yTd - 15)
      (fmt_money total).asString ∈ totalRowOps fontRegular left colW yTd total := by
  simp only [totalRowOps]
  refine List.mem_append_right _ ?_
  simp

theorem totalRow_label_mem (fontRegular : String) (left : ℚ) (colW : List ℚ)
    (yTd total : ℚ) (h : colW.length > 1) :
    Op.drawCentredString (left + sumQ colW.dropLast.dropLast + colW.dropLast.getLastD 0 / 2)
      (yTd - 15) "Total:" ∈ totalRowOps fontRegular left colW yTd total := by
  simp only [totalRowOps]
  refine List.mem_append_left _ ?_
  refine List.mem_cons_of_mem _ ?_
  rw [if_pos h]
  simp

theorem totalRowOps_single (fontRegular : String) (left : ℚ) (colW : List ℚ)
    (yTd total : ℚ) (h : colW.length ≤ 1) :
    totalRowOps fontRegular left colW yTd total =
      [Op.setFont fontRegular 10, Op.setFillColor blackColor,
       Op.drawRightString (left + sumQ colW.dropLast + colW.getLastD 0 - 4) (yTd - 15)
         (fmt_money total).asString,
       Op.rect (left + sumQ colW.dropLast) (yTd - 22) (colW.getLastD 0) 22 true false] := by
  simp only [totalRowOps]
  rw [if_neg (by omega)]
  rfl

theorem fmt_money_zero : (fmt_money 0).asString = "$0.00" := by
  have h1 : (0 : ℚ) * 100 = ((0 : ℤ) : ℚ) := by norm_num
  unfold fmt_money
  rw [h1, roundHalfEven_intCast]
  decide

/-- The total row of a concrete five-column table, fully evaluated. -/
theorem totalRowOps_concrete :
    totalRowOps "Helvetica" 36 [100, 100, 100, 100, 100] 500 0 =
      [Op.setFont "Helvetica" 10, Op.setFillColor blackColor,
       Op.drawCentredString 386 485 "Total:",
       Op.rect 336 478 100 22 true false,
       Op.setFillColor blackColor,
       Op.drawRightString 532 485 "$0.00",
       Op.rect 436 478 100 22 true false] := by
  simp only [totalRowOps, fmt_money_zero]
  norm_num [sumQ]

/-- C9 counterexample: in the total row of a concrete five-column
table, the "Total:" label is not drawn by any right-aligned text
operation (it is drawn centred), refuting the claim that the label is
rendered right-aligned in the second-to-last column. -/
theorem C9_label_not_right_aligned_counterexample :
    ¬ (∃ x y : ℚ, Op.drawRightString x y "Total:" ∈
        totalRowOps "Helvetica" 36 [100, 100, 100, 100, 100] 500 0) := by
  rintro ⟨x, y, hmem⟩
  rw [totalRowOps_concrete] at hmem
  simp only [List.mem_cons, List.mem_nil_iff, or_false] at hmem
  rcases hmem with h | h | h | h | h | h | h
  · exact Op.noConfusion h
  · exact Op.noConfusion h
  · exact Op.noConfusion h
  · exact Op.noConfusion h
  · exact Op.noConfusion h
  · have hs : ("Total:" : String) = "$0.00" := by injection h
    exact absurd hs (by decide)
  · exact Op.noConfusion h

/-- C9 (amended): in the table's total row, the summed total is
rendered right-aligned in the last column; a "Total:" label is rendered
horizontally centred over the second-to-last column — centred, not
right-aligned, which is the only change the counterexample forces —
and the label is omitted exactly when only one column exists. -/
theorem C9_total_row_layout (fontRegular : String) (left : ℚ) (colW : List ℚ)
    (yTd total : ℚ) :
    (Op.drawRightString (left + sumQ colW.dropLast + colW.getLastD 0 - 4) (yTd - 15)
        (fmt_money total).asString ∈ totalRowOps fontRegular left colW yTd total) ∧
    (colW.length > 1 →
      Op.drawCentredString
          (left + sumQ colW.dropLast.dropLast + colW.dropLast.getLastD 0 / 2) (yTd - 15)
          "Total:" ∈ totalRowOps fontRegular left colW yTd total) ∧
    (colW.length ≤ 1 →
      totalRowOps fontRegular left colW yTd total =
        [Op.setFont fontRegular 10, Op.setFillColor blackColor,
         Op.drawRightString (left + sumQ colW.dropLast + colW.getLastD 0 - 4) (yTd - 15)
           (fmt_money total).asString,
         Op.rect (left + sumQ colW.dropLast) (yTd - 22) (colW.getLastD 0) 22 true false]) :=
  ⟨totalRow_total_mem fontRegular left colW yTd total,
   totalRow_label_mem fontRegular left colW yTd total,
   totalRowOps_single fontRegular left colW yTd total⟩

/-- Witness for C9 (amended) at concrete inputs: a five-column table
draws the centred label; a one-column table omits it. -/
theorem C9_total_row_layout_witness :
    (([100, 100, 100, 100, 100] : List ℚ).length > 1 ∧
      Op.drawCentredString
          (36 + sumQ ([100, 100, 100, 100, 100] : List ℚ).dropLast.dropLast +
            ([100, 100, 100, 100, 100] : List ℚ).dropLast.getLastD 0 / 2) (500 - 15)
          "Total:" ∈ totalRowOps "Helvetica" 36 [100, 100, 100, 100, 100] 500 0) ∧
    (([100] : List ℚ).length ≤ 1 ∧
      totalRowOps "Helvetica" 36 [100] 500 0 =
        [Op.setFont "Helvetica" 10, Op.setFillColor blackColor,
         Op.drawRightString (36 + sumQ ([100] : List ℚ).dropLast +
             ([100] : List ℚ).getLastD 0 - 4) (500 - 15)
           (fmt_money 0).asString,
         Op.rect (36 + sumQ ([100] : List ℚ).dropLast) (500 - 22)
           (([100] : List ℚ).getLastD 0) 22 true false]) := by
  have h5 : ([100, 100, 100, 100, 100] : List ℚ).length > 1 := by simp
  have h1 : ([100] : List ℚ).length ≤ 1 := by simp
  exact ⟨⟨h5, (C9_total_row_layout "Helvetica" 36 [100, 100, 100, 100, 100] 500 0).2.1 h5⟩,
    ⟨h1, (C9_total_row_layout "Helvetica" 36 [100] 500 0).2.2 h1⟩⟩

/-- C1: the total drawn right-aligned in the table's total row is the
exact sum of all rows' `annual_service_fee` values formatted by
`fmt_money` — dollar sign, thousands separators, exactly two decimal
places; on the spec's example, fees [1234.5, 65.25] yield the drawn
string "$1,299.75". -/
theorem C1_total_row_displays_sum (sw : String → ℚ → List Char → ℚ)
    (fontRegular fontBold warehouseType : String) (services : List NormRow) (top : ℚ)
    (startStr endStr : List Char)
    (_hfees : ∀ r ∈ services, 0 ≤ r.annual_service_fee) :
    (∃ x y : ℚ, Op.drawRightString x y
        (fmt_money (sumQ (services.map (fun r => r.annual_service_fee)))).asString ∈
        servicesTableOps sw fontRegular fontBold warehouseType services top startStr
          endStr) ∧
    (fmt_money (sumQ [(1234.5 : ℚ), 65.25])).asString = "$1,299.75" := by
  constructor
  · simp only [servicesTableOps]
    exact ⟨_, _, List.mem_append_right _ (totalRow_total_mem _ _ _ _ _)⟩
  · have hsum : sumQ [(1234.5 : ℚ), 65.25] * 100 = ((129975 : ℤ) : ℚ) := by
      norm_num [sumQ]
    unfold fmt_money
    rw [hsum, roundHalfEven_intCast]
    decide

/-- Witness for C1 at a concrete input: the spec's example rows with
fees 1234.5 and 65.25. -/
theorem C1_total_row_displays_sum_witness :
    (∀ r ∈ [(⟨[], ['A'], [], [], 1234.5⟩ : NormRow), ⟨[], ['B'], [], [], 65.25⟩],
      0 ≤ r.annual_service_fee) ∧
    (∃ x y : ℚ, Op.drawRightString x y
        (fmt_money (sumQ
          ([(⟨[], ['A'], [], [], 1234.5⟩ : NormRow), ⟨[], ['B'], [], [], 65.25⟩].map
            (fun r => r.annual_service_fee)))).asString ∈
        servicesTableOps (fun _ _ l => (l.length : ℚ)) "R" "B" "Cloud"
          [(⟨[], ['A'], [], [], 1234.5⟩ : NormRow), ⟨[], ['B'], [], [], 65.25⟩] 600
          ['s'] ['e']) ∧
    (fmt_money (sumQ [(1234.5 : ℚ), 65.25])).asString = "$1,299.75" := by
  have hf : ∀ r ∈ [(⟨[], ['A'], [], [], 1234.5⟩ : NormRow), ⟨[], ['B'], [], [], 65.25⟩],
      0 ≤ r.annual_service_fee := by
    intro r hr
    rcases List.mem_cons.mp hr with rfl | hr
    · norm_num
    · rcases List.mem_cons.mp hr with rfl | hr
      · norm_num
      · simp at hr
  have := C1_total_row_displays_sum (fun _ _ l => (l.length : ℚ)) "R" "B" "Cloud"
    [(⟨[], ['A'], [], [], 1234.5⟩ : NormRow), ⟨[], ['B'], [], [], 65.25⟩] 600
    ['s'] ['e'] hf
  exact ⟨hf, this.1, this.2⟩
